import Mathlib

/-!
Verification of the ask-maas content-acquisition and retrieval-ranking core.

Each Python function under scrutiny is shallowly embedded as an executable
Lean definition over plain data: strings as `String`/`List Char`, scores as
`ℚ` (decimal literals such as `0.8` become `Rat.divInt 4 5`), byte counts
as `ℕ`.  Network responses are passed in explicitly as values so that the
control flow on them can be reasoned about.  Python's stable `sorted` is
modelled by `List.insertionSort`, which is stable and executable.
-/

/-! ## Python string comparison

Python compares strings lexicographically by code point.  `charListLe` is
that comparison on the underlying character lists. -/

/-- Lexicographic (code-point) `≤` on character lists, Python's string
comparison. -/
def charListLe : List Char → List Char → Bool
  | [], _ => true
  | _ :: _, [] => false
  | a :: as, b :: bs => if a < b then true else if b < a then false else charListLe as bs

theorem charListLe_cons_iff {a b : Char} {as bs : List Char} :
    charListLe (a :: as) (b :: bs) = true ↔
      a < b ∨ (a = b ∧ charListLe as bs = true) := by
  simp only [charListLe]
  split_ifs with h1 h2
  · simp [h1]
  · constructor
    · intro h; cases h
    · rintro (h | ⟨rfl, h⟩)
      · exact absurd h h1
      · exact absurd h2 (lt_irrefl a)
  · have hab : a = b := le_antisymm (not_lt.mp h2) (not_lt.mp h1)
    subst hab
    simp [h1]

theorem charListLe_total : ∀ as bs : List Char,
    charListLe as bs = true ∨ charListLe bs as = true := by
  intro as
  induction as with
  | nil => intro bs; left; rfl
  | cons a as ih =>
    intro bs
    cases bs with
    | nil => right; rfl
    | cons b bs =>
      rcases lt_trichotomy a b with h | h | h
      · left; rw [charListLe_cons_iff]; exact Or.inl h
      · subst h
        rcases ih bs with h' | h'
        · left; rw [charListLe_cons_iff]; exact Or.inr ⟨rfl, h'⟩
        · right; rw [charListLe_cons_iff]; exact Or.inr ⟨rfl, h'⟩
      · right; rw [charListLe_cons_iff]; exact Or.inl h

theorem charListLe_trans : ∀ as bs cs : List Char,
    charListLe as bs = true → charListLe bs cs = true → charListLe as cs = true := by
  intro as
  induction as with
  | nil => intro bs cs _ _; rfl
  | cons a as ih =>
    intro bs cs h1 h2
    cases bs with
    | nil => cases h1
    | cons b bs =>
      cases cs with
      | nil => cases h2
      | cons c cs =>
        rw [charListLe_cons_iff] at h1 h2 ⊢
        rcases h1 with h1 | ⟨rfl, h1⟩
        · rcases h2 with h2 | ⟨rfl, _⟩
          · exact Or.inl (lt_trans h1 h2)
          · exact Or.inl h1
        · rcases h2 with h2 | ⟨rfl, h2⟩
          · exact Or.inl h2
          · exact Or.inr ⟨rfl, ih bs cs h1 h2⟩

theorem charListLe_antisymm : ∀ as bs : List Char,
    charListLe as bs = true → charListLe bs as = true → as = bs := by
  intro as
  induction as with
  | nil =>
    intro bs _ h2
    cases bs with
    | nil => rfl
    | cons b bs => cases h2
  | cons a as ih =>
    intro bs h1 h2
    cases bs with
    | nil => cases h1
    | cons b bs =>
      rw [charListLe_cons_iff] at h1 h2
      rcases h1 with h1 | ⟨rfl, h1⟩
      · rcases h2 with h2 | ⟨h2, _⟩
        · exact absurd h2 (lt_asymm h1)
        · exact absurd (h2 ▸ h1) (lt_irrefl b)
      · rcases h2 with h2 | ⟨_, h2⟩
        · exact absurd h2 (lt_irrefl a)
        · rw [ih bs h1 h2]

/-- Python `≤` on strings. -/
def pyStrLe (a b : String) : Prop := charListLe a.data b.data = true

instance : DecidableRel pyStrLe := fun a b => by
  unfold pyStrLe; infer_instance

instance : IsTotal String pyStrLe :=
  ⟨fun a b => charListLe_total a.data b.data⟩

instance : IsTrans String pyStrLe :=
  ⟨fun a b c => charListLe_trans a.data b.data c.data⟩

instance : IsAntisymm String pyStrLe :=
  ⟨fun a b h1 h2 => by
    cases a with
    | mk da =>
      cases b with
      | mk db => exact congrArg String.mk (charListLe_antisymm da db h1 h2)⟩

/-! ## URL canonicalization (`worker/jobs.py::canonicalize_url`)

A URL string is represented by its parse into the components produced by
`urllib.parse.urlparse` (`params` is unused by every URL in this system and
omitted).  `url.lower()` before parsing lower-cases every component, since
`str.lower` fixes the delimiter characters `: / ? #`; the model therefore
lower-cases componentwise. -/

structure ParsedUrl where
  scheme : String
  netloc : String
  path : String
  query : String
  fragment : String
deriving DecidableEq, Repr

/-- `str.lower` on an ASCII string. -/
def lowerStr (s : String) : String :=
  String.mk (s.data.map Char.toLower)

/-- Python `s.rstrip("/")`: drop every trailing `'/'`. -/
def rstripSlash (s : String) : String :=
  String.mk ((s.data.reverse.dropWhile (fun c => c = '/')).reverse)

/-- Python `query.split("&")` on the underlying characters. -/
def splitAmpChars : List Char → List (List Char)
  | [] => [[]]
  | c :: cs =>
    if c = '&' then [] :: splitAmpChars cs
    else
      match splitAmpChars cs with
      | [] => [[c]]
      | t :: ts => (c :: t) :: ts

/-- Python `query.split("&")`. -/
def splitAmp (s : String) : List String :=
  (splitAmpChars s.data).map String.mk

/-- Python `"&".join(fields)`. -/
def joinAmp : List String → String
  | [] => ""
  | [s] => s
  | s :: rest => s ++ "&" ++ joinAmp rest

/-- Python `"&".join(sorted(query.split("&")))`: lexicographic sort of the
raw `key=value` fields. -/
def sortQueryStr (q : String) : String :=
  joinAmp (List.insertionSort pyStrLe (splitAmp q))

/-- `canonicalize_url` from `worker/jobs.py`, transcribed line by line:
`urlparse(url.lower())`, remove fragment, strip trailing slash from the
path unless the path is exactly `"/"`, and sort the query parameters when
the query is non-empty. -/
def canonicalize_url (u : ParsedUrl) : ParsedUrl :=
  let p : ParsedUrl :=
    { scheme := lowerStr u.scheme, netloc := lowerStr u.netloc,
      path := lowerStr u.path, query := lowerStr u.query,
      fragment := lowerStr u.fragment }
  let p := { p with fragment := "" }
  let p := { p with path := if p.path = "/" then "/" else rstripSlash p.path }
  let p := { p with query := if p.query = "" then p.query else sortQueryStr p.query }
  p

/-- Modelled from the spec: the canonicalizer as claim C9 words it, namely
lower-casing only the scheme and host while leaving the case of the rest of
the URL unchanged, then the same fragment/slash/query rules. -/
def canonicalizeSpecClaim (u : ParsedUrl) : ParsedUrl :=
  let p : ParsedUrl := { u with scheme := lowerStr u.scheme, netloc := lowerStr u.netloc }
  let p := { p with fragment := "" }
  let p := { p with path := if p.path = "/" then "/" else rstripSlash p.path }
  let p := { p with query := if p.query = "" then p.query else sortQueryStr p.query }
  p

/-! The four rules of spec §4.1 as standalone passes, used to state that the
code is their exact composition (with the lower-casing applied to the whole
URL). -/

/-- Rule 1 as the code implements it: lower-case the whole URL. -/
def ruleLowerAll (u : ParsedUrl) : ParsedUrl :=
  { scheme := lowerStr u.scheme, netloc := lowerStr u.netloc,
    path := lowerStr u.path, query := lowerStr u.query,
    fragment := lowerStr u.fragment }

/-- Rule 2: strip the fragment. -/
def ruleStripFragment (u : ParsedUrl) : ParsedUrl :=
  { u with fragment := "" }

/-- Rule 3: strip trailing slashes from the path except for the root path. -/
def ruleStripSlash (u : ParsedUrl) : ParsedUrl :=
  { u with path := if u.path = "/" then "/" else rstripSlash u.path }

/-- Rule 4: sort the query parameters by raw `key=value` text. -/
def ruleSortQuery (u : ParsedUrl) : ParsedUrl :=
  { u with query := if u.query = "" then u.query else sortQueryStr u.query }

/-- Helper: sorting the `&`-separated fields is invariant under permutation
of the fields. -/
theorem sortQueryStr_perm_eq {q₁ q₂ : String}
    (h : (splitAmp q₁).Perm (splitAmp q₂)) :
    sortQueryStr q₁ = sortQueryStr q₂ := by
  unfold sortQueryStr
  congr 1
  refine List.eq_of_perm_of_sorted (r := pyStrLe) ?_ ?_ ?_
  · exact ((List.perm_insertionSort _ _).trans h).trans
      (List.perm_insertionSort _ _).symm
  · exact List.sorted_insertionSort _ _
  · exact List.sorted_insertionSort _ _

/-- Helper: lower-casing preserves (non-)emptiness. -/
theorem lowerStr_ne_empty {s : String} (h : s ≠ "") : lowerStr s ≠ "" := by
  cases s with
  | mk data =>
    cases data with
    | nil => exact absurd rfl h
    | cons c cs =>
      intro hl
      have h2 : ((c :: cs).map Char.toLower) = ([] : List Char) :=
        congrArg String.data hl
      simp at h2

/-- Counterexample to claim C9 as stated: on the URL
`https://x.com/Docs/Guide` the code lower-cases the path as well, while the
claimed rule list leaves the case of everything but scheme and host
unchanged. -/
theorem canonicalize_url_claim_cex :
    canonicalizeSpecClaim ⟨"https", "x.com", "/Docs/Guide", "", ""⟩ ≠
      canonicalize_url ⟨"https", "x.com", "/Docs/Guide", "", ""⟩ := by
  decide

/-- C9 (amended): `canonicalize_url` is exactly the composition, in order,
of (1) lower-casing the entire URL (scheme, host, path, query and fragment
alike, not only scheme and host), (2) stripping the fragment, (3) stripping
trailing `/` from the path except when the path is the root `/`, and
(4) sorting the query parameters lexicographically by raw `key=value` text.
Consequently URLs differing only in fragment, and URLs with non-empty
queries whose (lower-cased) parameter lists are permutations of one
another, canonicalize identically. -/
theorem canonicalize_url_rules (u : ParsedUrl) (f₁ f₂ q₁ q₂ : String)
    (hq₁ : q₁ ≠ "") (hq₂ : q₂ ≠ "")
    (hq : (splitAmp (lowerStr q₁)).Perm (splitAmp (lowerStr q₂))) :
    canonicalize_url u = ruleSortQuery (ruleStripSlash (ruleStripFragment (ruleLowerAll u)))
      ∧ canonicalize_url { u with fragment := f₁ } = canonicalize_url { u with fragment := f₂ }
      ∧ canonicalize_url { u with query := q₁ } = canonicalize_url { u with query := q₂ } := by
  refine ⟨rfl, rfl, ?_⟩
  have key : ∀ q : String, lowerStr q ≠ "" →
      canonicalize_url { u with query := q } =
        { scheme := lowerStr u.scheme, netloc := lowerStr u.netloc,
          path := if lowerStr u.path = "/" then "/" else rstripSlash (lowerStr u.path),
          query := sortQueryStr (lowerStr q), fragment := "" } := by
    intro q hq'
    show ({ scheme := lowerStr u.scheme, netloc := lowerStr u.netloc,
            path := if lowerStr u.path = "/" then "/" else rstripSlash (lowerStr u.path),
            query := if lowerStr q = "" then lowerStr q else sortQueryStr (lowerStr q),
            fragment := "" } : ParsedUrl) = _
    rw [if_neg hq']
  rw [key q₁ (lowerStr_ne_empty hq₁), key q₂ (lowerStr_ne_empty hq₂),
    sortQueryStr_perm_eq hq]

/-- Witness for `canonicalize_url_rules` at the spec's own example
`?b=2&a=1` vs `?a=1&b=2`. -/
theorem canonicalize_url_rules_witness :
    canonicalize_url { scheme := "https", netloc := "example.com", path := "/page",
                       query := "b=2&a=1", fragment := "sec" } =
      canonicalize_url { scheme := "https", netloc := "example.com", path := "/page",
                         query := "a=1&b=2", fragment := "sec" } :=
  (canonicalize_url_rules
    { scheme := "https", netloc := "example.com", path := "/page",
      query := "", fragment := "sec" }
    "a" "b" "b=2&a=1" "a=1&b=2" (by decide) (by decide) (by decide)).2.2

/-! ## Chunking (`worker/jobs.py::chunk_text`)

`chunk_text(text, max_length, overlap)` slides a window of `max_length`
characters, moving each cut back to a sentence/paragraph boundary when one
occurs late enough in the window, and starts the next window `overlap`
characters before the cut.  Text is `List Char`; the `while` loop becomes a
fuel-indexed recursion.  The fuel `text.length + 1` given below is exact:
a terminating run of the Python loop visits pairwise distinct window
starts in `[0, len)` plus one final start `≥ len`, hence makes at most
`text.length + 1` iterations, so `chunk_text` returns `none` precisely
when the Python loop never terminates. -/

/-- The boundary markers `['. ', '\n\n', '\n', '! ', '? ']`, in the order
the code tries them. -/
def markers : List (List Char) :=
  [['.', ' '], ['\n', '\n'], ['\n'], ['!', ' '], ['?', ' ']]

/-- Python `marker.rstrip()` (the markers contain only `' '` and `'\n'`). -/
def rstripWs (l : List Char) : List Char :=
  (l.reverse.dropWhile (fun c => c == ' ' || c == '\n')).reverse

/-- Does `pat` occur in `text` starting at index `i`? -/
def matchesAt (text pat : List Char) (i : Nat) : Bool :=
  decide ((text.drop i).take pat.length = pat)

/-- Python `text.rfind(pat, start, stop)`: the greatest `i` with
`start ≤ i`, `i + |pat| ≤ stop` and an occurrence of `pat` at `i`
(`none` for Python's `-1`). -/
def rfindIn (text pat : List Char) (start stop : Nat) : Option Nat :=
  ((List.range stop).filter
    (fun i => decide (start ≤ i) && decide (i + pat.length ≤ stop) && matchesAt text pat i)).getLast?

/-- The marker loop of `chunk_text`: for each marker in order, if its last
occurrence inside `[start, hardEnd)` lies strictly after
`start + maxLen / 2`, cut at `occurrence + len(marker.rstrip())` and stop;
otherwise try the next marker; if no marker qualifies keep the hard end. -/
def markerAdjust (text : List Char) (start hardEnd maxLen : Nat) : List (List Char) → Nat
  | [] => hardEnd
  | m :: rest =>
    match rfindIn text m start hardEnd with
    | some i =>
      if start + maxLen / 2 < i then i + (rstripWs m).length
      else markerAdjust text start hardEnd maxLen rest
    | none => markerAdjust text start hardEnd maxLen rest

/-- One loop iteration's cut point: `end = min(start + max_length, len(text))`,
adjusted by the marker loop only when `end < len(text)`. -/
def stepEnd (text : List Char) (maxLen start : Nat) : Nat :=
  if min (start + maxLen) text.length < text.length then
    markerAdjust text start (min (start + maxLen) text.length) maxLen markers
  else min (start + maxLen) text.length

/-- One loop iteration's next window start:
`start = end - overlap if end < len(text) else end`. -/
def stepStart (text : List Char) (maxLen overlap start : Nat) : Nat :=
  if stepEnd text maxLen start < text.length then stepEnd text maxLen start - overlap
  else stepEnd text maxLen start

/-- The `while start < len(text)` loop of `chunk_text`, with fuel. -/
def chunkGo (text : List Char) (maxLen overlap : Nat) :
    Nat → Nat → List (List Char) → Option (List (List Char))
  | 0, _, _ => none
  | fuel + 1, start, acc =>
    if start < text.length then
      chunkGo text maxLen overlap fuel (stepStart text maxLen overlap start)
        (acc ++ [(text.drop start).take (stepEnd text maxLen start - start)])
    else some acc

/-- `chunk_text` from `worker/jobs.py`: `[text]` when it already fits,
otherwise the window loop. -/
def chunk_text (text : List Char) (maxLen overlap : Nat) : Option (List (List Char)) :=
  if text.length ≤ maxLen then some [text]
  else chunkGo text maxLen overlap (text.length + 1) 0 []

/-- Modelled from the spec: claim C2's reading of the cut rule, where the
cut moves to the *nearest* qualifying boundary marker over all five marker
strings (the rightmost qualifying occurrence regardless of which marker it
belongs to) instead of trying the markers in priority order. -/
def markerAdjustNearest (text : List Char) (start hardEnd maxLen : Nat) : Nat :=
  let cands := markers.filterMap (fun m =>
    match rfindIn text m start hardEnd with
    | some i =>
      if start + maxLen / 2 < i then some (i, (rstripWs m).length) else none
    | none => none)
  match cands.foldl (fun best c =>
    match best with
    | none => some c
    | some b => if b.1 < c.1 then some c else some b) none with
  | some p => p.1 + p.2
  | none => hardEnd

/-- Modelled from the spec: `stepEnd` under the nearest-marker reading. -/
def stepEndNearest (text : List Char) (maxLen start : Nat) : Nat :=
  if min (start + maxLen) text.length < text.length then
    markerAdjustNearest text start (min (start + maxLen) text.length) maxLen
  else min (start + maxLen) text.length

/-- Modelled from the spec: the window loop under the nearest-marker
reading. -/
def chunkGoNearest (text : List Char) (maxLen overlap : Nat) :
    Nat → Nat → List (List Char) → Option (List (List Char))
  | 0, _, _ => none
  | fuel + 1, start, acc =>
    if start < text.length then
      chunkGoNearest text maxLen overlap fuel
        (if stepEndNearest text maxLen start < text.length then
          stepEndNearest text maxLen start - overlap
        else stepEndNearest text maxLen start)
        (acc ++ [(text.drop start).take (stepEndNearest text maxLen start - start)])
    else some acc

/-- Modelled from the spec: `chunk_text` under claim C2's nearest-marker
reading of the cut rule. -/
def chunkTextNearest (text : List Char) (maxLen overlap : Nat) : Option (List (List Char)) :=
  if text.length ≤ maxLen then some [text]
  else chunkGoNearest text maxLen overlap (text.length + 1) 0 []

/-- The slice `text[a:b]` of a character list. -/
def sliceCL (t : List Char) (a b : Nat) : List Char := (t.drop a).take (b - a)

theorem sliceCL_append {t : List Char} {a b c : Nat} (hab : a ≤ b) (hbc : b ≤ c) :
    sliceCL t a b ++ sliceCL t b c = sliceCL t a c := by
  unfold sliceCL
  have hd : t.drop b = (t.drop a).drop (b - a) := by
    rw [List.drop_drop]
    congr 1
    omega
  rw [hd, ← List.take_add]
  congr 1
  omega

theorem drop_sliceCL (t : List Char) (k a b : Nat) :
    (sliceCL t a b).drop k = sliceCL t (a + k) b := by
  unfold sliceCL
  rw [List.drop_take, List.drop_drop]
  congr 1
  omega

theorem sliceCL_length (t : List Char) (a b : Nat) :
    (sliceCL t a b).length = min (b - a) (t.length - a) := by
  simp [sliceCL]

theorem sliceCL_full (t : List Char) : sliceCL t 0 t.length = t := by
  simp [sliceCL]

/-- Reassembly of a chunk list: the first chunk whole, every later chunk
with its first `overlap` characters dropped. -/
def assembleHead (overlap : Nat) : List (List Char) → List Char
  | [] => []
  | c :: cs => c ++ (cs.map (fun l => l.drop overlap)).flatten

/-- Reassembly with `overlap` characters dropped from every chunk. -/
def assembleDrop (overlap : Nat) (l : List (List Char)) : List Char :=
  (l.map (fun l => l.drop overlap)).flatten

theorem rfindIn_some {text pat : List Char} {start stop i : Nat}
    (h : rfindIn text pat start stop = some i) :
    start ≤ i ∧ i + pat.length ≤ stop := by
  have hmem : i ∈ (List.range stop).filter
      (fun i => decide (start ≤ i) && decide (i + pat.length ≤ stop) && matchesAt text pat i) :=
    List.mem_of_mem_getLast? h
  have hp := List.of_mem_filter hmem
  simp only [Bool.and_eq_true, decide_eq_true_iff] at hp
  exact ⟨hp.1.1, hp.1.2⟩

theorem rstripWs_length_le (l : List Char) : (rstripWs l).length ≤ l.length := by
  unfold rstripWs
  rw [List.length_reverse]
  calc (l.reverse.dropWhile (fun c => c == ' ' || c == '\n')).length
      ≤ l.reverse.length := (List.dropWhile_sublist _).length_le
    _ = l.length := List.length_reverse l

theorem markerAdjust_cases (text : List Char) (start hardEnd maxLen : Nat) :
    ∀ ms : List (List Char),
      markerAdjust text start hardEnd maxLen ms = hardEnd ∨
        ∃ i m, m ∈ ms ∧ rfindIn text m start hardEnd = some i ∧
          start + maxLen / 2 < i ∧
          markerAdjust text start hardEnd maxLen ms = i + (rstripWs m).length := by
  intro ms
  induction ms with
  | nil => exact Or.inl rfl
  | cons m rest ih =>
    simp only [markerAdjust]
    cases hf : rfindIn text m start hardEnd with
    | none =>
      rcases ih with h | ⟨i, m', hm, hr, hlt, he⟩
      · exact Or.inl h
      · exact Or.inr ⟨i, m', List.mem_cons_of_mem _ hm, hr, hlt, he⟩
    | some i =>
      dsimp only
      by_cases hc : start + maxLen / 2 < i
      · rw [if_pos hc]
        exact Or.inr ⟨i, m, List.mem_cons_self _ _, hf, hc, rfl⟩
      · rw [if_neg hc]
        rcases ih with h | ⟨i', m', hm, hr, hlt, he⟩
        · exact Or.inl h
        · exact Or.inr ⟨i', m', List.mem_cons_of_mem _ hm, hr, hlt, he⟩

theorem stepEnd_spec (text : List Char) (maxLen start : Nat) (hmax : 1 ≤ maxLen) :
    (text.length ≤ start + maxLen → stepEnd text maxLen start = text.length) ∧
    (start + maxLen < text.length →
      start + maxLen / 2 < stepEnd text maxLen start ∧
      stepEnd text maxLen start ≤ start + maxLen) := by
  constructor
  · intro hle
    unfold stepEnd
    have hmin : min (start + maxLen) text.length = text.length := by omega
    rw [hmin, if_neg (lt_irrefl _)]
  · intro hlt
    have hmin : min (start + maxLen) text.length = start + maxLen := by omega
    unfold stepEnd
    rw [hmin, if_pos hlt]
    rcases markerAdjust_cases text start (start + maxLen) maxLen markers with
      hc | ⟨i, m, _, hr, hcond, he⟩
    · rw [hc]
      have hdiv : maxLen / 2 < maxLen := Nat.div_lt_self (by omega) (by omega)
      omega
    · rw [he]
      have hb := rfindIn_some hr
      have hrs : (rstripWs m).length ≤ m.length := rstripWs_length_le m
      omega

theorem stepStart_spec (text : List Char) (maxLen overlap start : Nat)
    (hmax : 1 ≤ maxLen) (hov : overlap ≤ maxLen / 2) (hstart : start < text.length) :
    start < stepStart text maxLen overlap start ∧
      stepStart text maxLen overlap start ≤ text.length := by
  rcases le_or_lt text.length (start + maxLen) with hle | hlt
  · have he := (stepEnd_spec text maxLen start hmax).1 hle
    unfold stepStart
    rw [he, if_neg (lt_irrefl _)]
    exact ⟨hstart, le_refl _⟩
  · obtain ⟨hgt, hub⟩ := (stepEnd_spec text maxLen start hmax).2 hlt
    have helt : stepEnd text maxLen start < text.length := by omega
    unfold stepStart
    rw [if_pos helt]
    omega

/-- Main loop invariant for `chunk_text`: with `maxLen ≥ 1` and
`overlap ≤ maxLen / 2` the loop terminates within the fuel, every produced
chunk fits in `maxLen`, and the chunks reassemble to the processed suffix
of the text. -/
theorem chunkGo_spec (text : List Char) (maxLen overlap : Nat)
    (hmax : 1 ≤ maxLen) (hov : overlap ≤ maxLen / 2) :
    ∀ fuel start acc, start < text.length → text.length < fuel + start →
      ∃ out, chunkGo text maxLen overlap fuel start acc = some (acc ++ out) ∧
        out ≠ [] ∧ (∀ c ∈ out, c.length ≤ maxLen) ∧
        assembleHead overlap out = sliceCL text start text.length ∧
        assembleDrop overlap out = sliceCL text (start + overlap) text.length := by
  intro fuel
  induction fuel with
  | zero =>
    intro start acc h1 h2
    omega
  | succ fuel ih =>
    intro start acc h1 h2
    simp only [chunkGo, if_pos h1]
    have hchunk : (text.drop start).take (stepEnd text maxLen start - start) =
        sliceCL text start (stepEnd text maxLen start) := rfl
    rcases le_or_lt text.length (start + maxLen) with hle | hlt
    · -- final window: the cut is the end of the text
      have he : stepEnd text maxLen start = text.length :=
        (stepEnd_spec text maxLen start hmax).1 hle
      have hs : stepStart text maxLen overlap start = text.length := by
        unfold stepStart
        rw [he, if_neg (lt_irrefl _)]
      rw [hchunk, he, hs]
      obtain ⟨fuel', rfl⟩ : ∃ f, fuel = f + 1 := ⟨fuel - 1, by omega⟩
      simp only [chunkGo, if_neg (lt_irrefl text.length)]
      refine ⟨[sliceCL text start text.length], rfl, by simp, ?_, ?_, ?_⟩
      · intro c hc
        rcases List.mem_singleton.mp hc with rfl
        rw [sliceCL_length]
        omega
      · simp [assembleHead]
      · show (sliceCL text start text.length).drop overlap ++ [].flatten =
          sliceCL text (start + overlap) text.length
        rw [drop_sliceCL]
        simp
    · -- interior window: cut strictly before the end of the text
      obtain ⟨hgt, hub⟩ := (stepEnd_spec text maxLen start hmax).2 hlt
      have helt : stepEnd text maxLen start < text.length := by omega
      have hss : stepStart text maxLen overlap start = stepEnd text maxLen start - overlap := by
        unfold stepStart
        rw [if_pos helt]
      have h1' : stepStart text maxLen overlap start < text.length := by
        rw [hss]; omega
      have h2' : text.length < fuel + stepStart text maxLen overlap start := by
        rw [hss]; omega
      obtain ⟨out', heq, hne, hlen, hhead, hdrop⟩ :=
        ih (stepStart text maxLen overlap start)
          (acc ++ [(text.drop start).take (stepEnd text maxLen start - start)]) h1' h2'
      refine ⟨sliceCL text start (stepEnd text maxLen start) :: out', ?_, by simp, ?_, ?_, ?_⟩
      · rw [heq, hchunk, List.append_assoc]
        rfl
      · intro c hc
        rcases List.mem_cons.mp hc with rfl | hc'
        · rw [sliceCL_length]
          omega
        · exact hlen c hc'
      · show sliceCL text start (stepEnd text maxLen start) ++ assembleDrop overlap out' =
          sliceCL text start text.length
        rw [hdrop, hss]
        have hidx : stepEnd text maxLen start - overlap + overlap = stepEnd text maxLen start := by
          omega
        rw [hidx, sliceCL_append (by omega) (by omega)]
      · show (sliceCL text start (stepEnd text maxLen start)).drop overlap ++
            assembleDrop overlap out' = sliceCL text (start + overlap) text.length
        rw [hdrop, hss, drop_sliceCL]
        have hidx : stepEnd text maxLen start - overlap + overlap = stepEnd text maxLen start := by
          omega
        rw [hidx, sliceCL_append (by omega) (by omega)]

/-- Counterexample to claim C2's cut-point rule as stated: on
`"abcdef. h\nklmnopqrst"` with `maxLen = 10`, `overlap = 1`, the nearest
qualifying marker in the first window is the `'\n'` at index 9, but the
code tries `'. '` first and cuts at index 7, so the chunk lists differ
(`["abcdef.", ". h\nklmnop", "pqrst"]` against
`["abcdef. h", "h\nklmnopqr", "rst"]`). -/
theorem chunk_text_nearest_cex :
    chunk_text "abcdef. h\nklmnopqrst".data 10 1 ≠
      chunkTextNearest "abcdef. h\nklmnopqrst".data 10 1 := by
  decide

/-- C2 (amended): provided `maxLen ≥ 1` and `overlap ≤ maxLen / 2` (as at
every in-repo call site), `chunk_text text maxLen overlap` returns `[text]`
when `len text ≤ maxLen`; otherwise every returned chunk has length
`≤ maxLen` and concatenating the first chunk with every subsequent chunk
after dropping its leading `overlap` characters reconstructs the text
exactly.  Cut points move back to the last occurrence of the first marker
among `". "`, `"\n\n"`, `"\n"`, `"! "`, `"? "` — tried in that priority
order, not to the nearest marker over all five — that occurs more than
`maxLen / 2` past the window start. -/
theorem chunk_text_spec (text : List Char) (maxLen overlap : Nat)
    (hmax : 1 ≤ maxLen) (hov : overlap ≤ maxLen / 2) :
    ∃ out, chunk_text text maxLen overlap = some out ∧
      (text.length ≤ maxLen → out = [text]) ∧
      (∀ c ∈ out, c.length ≤ maxLen) ∧
      assembleHead overlap out = text := by
  unfold chunk_text
  by_cases hfit : text.length ≤ maxLen
  · refine ⟨[text], by rw [if_pos hfit], fun _ => rfl, ?_, by simp [assembleHead]⟩
    intro c hc
    rcases List.mem_singleton.mp hc with rfl
    exact hfit
  · rw [if_neg hfit]
    obtain ⟨out, heq, _, hlen, hhead, _⟩ :=
      chunkGo_spec text maxLen overlap hmax hov (text.length + 1) 0 []
        (by omega) (by omega)
    refine ⟨out, by rw [heq]; rfl, fun h => absurd h hfit, hlen, ?_⟩
    rw [hhead]
    exact sliceCL_full text

/-- Witness for `chunk_text_spec` on a concrete 26-character text with
`maxLen = 10`, `overlap = 2`. -/
theorem chunk_text_spec_witness :
    ∃ out, chunk_text "The quick brown fox jumps.".data 10 2 = some out ∧
      ("The quick brown fox jumps.".data.length ≤ 10 →
        out = ["The quick brown fox jumps.".data]) ∧
      (∀ c ∈ out, c.length ≤ 10) ∧
      assembleHead 2 out = "The quick brown fox jumps.".data :=
  chunk_text_spec "The quick brown fox jumps.".data 10 2 (by decide) (by decide)

/-- The loop body of `chunk_text` never advances the window when
`maxLen = 0`: with `text = "a"`, `overlap = 0` (which satisfies
`overlap ≤ maxLen / 2`) every iteration re-enters with `start = 0`, so no
amount of fuel makes the loop finish. -/
theorem chunkGo_zero_maxLen_stuck :
    ∀ fuel acc, chunkGo "a".data 0 0 fuel 0 acc = none := by
  intro fuel
  induction fuel with
  | zero => intro acc; rfl
  | succ fuel ih =>
    intro acc
    have h01 : (0 : Nat) < ("a".data).length := by decide
    have hse : stepEnd "a".data 0 0 = 0 := by decide
    have hss : stepStart "a".data 0 0 0 = 0 := by decide
    simp only [chunkGo, if_pos h01, hss, hse]
    exact ih _

/-- Counterexample to claim C10 as stated: `maxLen = 0`, `overlap = 0`
satisfies `overlap ≤ maxLen / 2`, yet on the one-character text `"a"` the
window never advances and `chunk_text` does not terminate (the general
statement is `chunkGo_zero_maxLen_stuck`). -/
theorem chunk_text_no_advance_cex :
    chunk_text "a".data 0 0 = none :=
  chunkGo_zero_maxLen_stuck ("a".data.length + 1) []

/-- C10 (amended): provided `maxLen ≥ 1` and `overlap ≤ maxLen / 2` (all
in-repo call sites use `maxLen = 400` or `500` with `overlap = 50`),
`chunk_text` terminates: the cut point of every window that does not reach
the end of the text lies strictly more than `maxLen / 2` past the window
start, and the final window's cut is the text end, so the window start
strictly increases each iteration.  Without `maxLen ≥ 1` the start need
not advance even when `overlap ≤ maxLen / 2` holds. -/
theorem chunk_text_terminates (text : List Char) (maxLen overlap : Nat)
    (hmax : 1 ≤ maxLen) (hov : overlap ≤ maxLen / 2) :
    (chunk_text text maxLen overlap).isSome = true ∧
      (∀ start, start + maxLen < text.length →
        start + maxLen / 2 < stepEnd text maxLen start) ∧
      (∀ start, start < text.length →
        start < stepStart text maxLen overlap start) := by
  refine ⟨?_, ?_, ?_⟩
  · unfold chunk_text
    by_cases hfit : text.length ≤ maxLen
    · rw [if_pos hfit]; rfl
    · rw [if_neg hfit]
      obtain ⟨out, heq, _⟩ :=
        chunkGo_spec text maxLen overlap hmax hov (text.length + 1) 0 []
          (by omega) (by omega)
      rw [heq]
      rfl
  · intro start hlt
    exact ((stepEnd_spec text maxLen start hmax).2 hlt).1
  · intro start hstart
    exact (stepStart_spec text maxLen overlap start hmax hov hstart).1

/-- Witness for `chunk_text_terminates` at `maxLen = 4`, `overlap = 2` on
an 11-character text, instantiated at window start `0`. -/
theorem chunk_text_terminates_witness :
    (chunk_text "hello world".data 4 2).isSome = true ∧
      0 + 4 / 2 < stepEnd "hello world".data 4 0 ∧
      0 < stepStart "hello world".data 4 2 0 :=
  ⟨(chunk_text_terminates "hello world".data 4 2 (by decide) (by decide)).1,
    (chunk_text_terminates "hello world".data 4 2 (by decide) (by decide)).2.1 0 (by decide),
    (chunk_text_terminates "hello world".data 4 2 (by decide) (by decide)).2.2 0 (by decide)⟩

/-! ## Hybrid retrieval fusion (`app/services/retrieval.py::_hybrid_search`)

Chunks are identified by their index into the candidate list; the BM25
scores are `lexicalScores` (one per chunk) and the dense (FAISS) result is
`indices`, the chunk indices in dense descending-score order.  Python's
`sorted(..., reverse=True)` is a stable descending sort; NumPy's
`argsort`-based tie order is unspecified, and the model fixes one
descending order (ties by ascending index). -/

/-- Descending order on chunk indices by lexical score
(`np.argsort(lexical_scores)[::-1]` read as a descending score order). -/
def lexGe (scores : List ℚ) (i j : Nat) : Prop :=
  scores.getD j 0 ≤ scores.getD i 0

instance (scores : List ℚ) : DecidableRel (lexGe scores) :=
  fun i j => inferInstanceAs (Decidable (_ ≤ _))

instance (scores : List ℚ) : IsTotal Nat (lexGe scores) :=
  ⟨fun i j => le_total _ _⟩

instance (scores : List ℚ) : IsTrans Nat (lexGe scores) :=
  ⟨fun _ _ _ h1 h2 => le_trans h2 h1⟩

/-- The chunk indices `0, …, n-1` in lexical descending-score order. -/
def lexOrder (scores : List ℚ) : List Nat :=
  List.insertionSort (lexGe scores) (List.range scores.length)

/-- `np.where(np.argsort(lexical_scores)[::-1] == idx)[0]` with fallback
`len(chunks)`: the 0-based position of `idx` in the lexical descending
order (`List.indexOf` returns the list length when absent, which is
exactly the code's `len(chunks)` fallback). -/
def lexicalRank (scores : List ℚ) (idx : Nat) : Nat :=
  (lexOrder scores).indexOf idx

/-- The RRF score `1/(k + denseRank + 1) + 1/(k + lexicalRank + 1)`. -/
def rrfScore (k denseRank lexRank : Nat) : ℚ :=
  1 / ((k : ℚ) + denseRank + 1) + 1 / ((k : ℚ) + lexRank + 1)

/-- Descending order on scored items
(`sorted(..., key=lambda x: x.score, reverse=True)`). -/
def descScore {α : Type} (a b : α × ℚ) : Prop := b.2 ≤ a.2

instance {α : Type} : DecidableRel (descScore (α := α)) :=
  fun a b => inferInstanceAs (Decidable (_ ≤ _))

instance {α : Type} : IsTotal (α × ℚ) descScore :=
  ⟨fun a b => le_total b.2 a.2⟩

instance {α : Type} : IsTrans (α × ℚ) descScore :=
  ⟨fun _ _ _ h1 h2 => le_trans h2 h1⟩

/-- The RRF fusion loop of `_hybrid_search`: enumerate the dense result
list (`for i, idx in enumerate(indices)`), keep entries with
`idx < len(chunks)`, score each as `1/(60 + i + 1) + 1/(60 + lexical_rank + 1)`
with `k = 60`, and sort descending by fused score. -/
def hybridFuse (scores : List ℚ) (indices : List Nat) : List (Nat × ℚ) :=
  List.insertionSort descScore
    ((indices.enum.filter (fun p => decide (p.2 < scores.length))).map
      (fun p => (p.2, rrfScore 60 p.1 (lexicalRank scores p.2))))

/-- C1: every chunk in the fused output carries the RRF score
`1/(60 + denseRank + 1) + 1/(60 + lexicalRank + 1)`, where `denseRank` is
its 0-based position in the dense result order and `lexicalRank` its
0-based position in the lexical descending-score order (with worst rank
`len(chunks)` when absent); the output is sorted descending by fused
score; the lexical order is a descending-sorted permutation of all chunk
indices; and a chunk ranked 0th lexically and 2nd densely scores
`1/63 + 1/61`. -/
theorem hybrid_rrf_spec (scores : List ℚ) (indices : List Nat) :
    (∀ c ∈ hybridFuse scores indices, ∃ denseRank,
        indices[denseRank]? = some c.1 ∧ c.1 < scores.length ∧
        c.2 = rrfScore 60 denseRank (lexicalRank scores c.1)) ∧
      List.Pairwise descScore (hybridFuse scores indices) ∧
      (lexOrder scores).Perm (List.range scores.length) ∧
      List.Pairwise (lexGe scores) (lexOrder scores) ∧
      rrfScore 60 2 0 = 1 / 63 + 1 / 61 := by
  refine ⟨?_, ?_, ?_, ?_, ?_⟩
  · intro c hc
    have hmem : c ∈ (indices.enum.filter (fun p => decide (p.2 < scores.length))).map
        (fun p => (p.2, rrfScore 60 p.1 (lexicalRank scores p.2))) :=
      ((List.perm_insertionSort _ _).mem_iff).mp hc
    obtain ⟨p, hpf, rfl⟩ := List.mem_map.mp hmem
    obtain ⟨hpe, hplt⟩ := List.mem_filter.mp hpf
    exact ⟨p.1, List.mem_enum_iff_getElem?.mp hpe, by simpa using hplt, rfl⟩
  · exact List.sorted_insertionSort _ _
  · exact List.perm_insertionSort _ _
  · exact List.sorted_insertionSort _ _
  · unfold rrfScore
    norm_num

/-- Witness for `hybrid_rrf_spec`: a single candidate chunk with lexical
score `5`, dense result `[0]`; the fused output contains chunk `0` with
dense rank `0`. -/
theorem hybrid_rrf_spec_witness :
    ∃ denseRank, ([0] : List Nat)[denseRank]? = some 0 ∧
      0 < [(5 : ℚ)].length ∧
      rrfScore 60 0 (lexicalRank [(5 : ℚ)] 0) =
        rrfScore 60 denseRank (lexicalRank [(5 : ℚ)] 0) :=
  (hybrid_rrf_spec [(5 : ℚ)] [0]).1 (0, rrfScore 60 0 (lexicalRank [(5 : ℚ)] 0))
    (List.mem_singleton.mpr rfl)

/-! ## Result diversification
(`app/services/vector_retrieval.py::_diversify_results`)

Items are `(page, score)` pairs (`page_url` identifiers as `ℕ`); the
`page_counts` dict is a total function with default `0`; `0.8` is
`Rat.divInt 4 5`. -/

/-- The selection loop: take an item when its page has fewer than
`max_per_page = 3` selected chunks or its score exceeds `0.8`; after a
selection, stop as soon as `top_k` items are selected. -/
def diversifyGo (topK : Nat) :
    List (Nat × ℚ) → List (Nat × ℚ) → (Nat → Nat) → List (Nat × ℚ)
  | [], sel, _ => sel
  | item :: rest, sel, counts =>
    if counts item.1 < 3 ∨ Rat.divInt 4 5 < item.2 then
      if topK ≤ (sel ++ [item]).length then sel ++ [item]
      else diversifyGo topK rest (sel ++ [item])
        (fun p => if p = item.1 then counts p + 1 else counts p)
    else diversifyGo topK rest sel counts

/-- `_diversify_results(chunks_with_scores, top_k)`. -/
def diversify (topK : Nat) (items : List (Nat × ℚ)) : List (Nat × ℚ) :=
  diversifyGo topK items [] (fun _ => 0)

/-- Helper: the loop only ever appends to the already-selected list. -/
theorem diversifyGo_extends (topK : Nat) :
    ∀ (l sel : List (Nat × ℚ)) (counts : Nat → Nat),
      ∃ t, t.Sublist l ∧ diversifyGo topK l sel counts = sel ++ t := by
  intro l
  induction l with
  | nil => exact fun sel counts => ⟨[], List.Sublist.refl _, by simp [diversifyGo]⟩
  | cons item rest ih =>
    intro sel counts
    simp only [diversifyGo]
    by_cases hsel : counts item.1 < 3 ∨ Rat.divInt 4 5 < item.2
    · rw [if_pos hsel]
      by_cases hbrk : topK ≤ (sel ++ [item]).length
      · exact ⟨[item], by simp, by rw [if_pos hbrk]⟩
      · rw [if_neg hbrk]
        obtain ⟨t, hsub, heq⟩ := ih (sel ++ [item])
          (fun p => if p = item.1 then counts p + 1 else counts p)
        exact ⟨item :: t, List.Sublist.cons₂ _ hsub, by rw [heq, List.append_assoc]; rfl⟩
    · rw [if_neg hsel]
      obtain ⟨t, hsub, heq⟩ := ih sel counts
      exact ⟨t, List.Sublist.cons _ hsub, heq⟩

/-- Helper: once anything is selected, the loop's output stays within
`topK` items provided it enters with fewer than `topK` selected. -/
theorem diversifyGo_length (topK : Nat) :
    ∀ (l sel : List (Nat × ℚ)) (counts : Nat → Nat),
      sel.length < topK → (diversifyGo topK l sel counts).length ≤ topK := by
  intro l
  induction l with
  | nil => intro sel counts h; simpa [diversifyGo] using Nat.le_of_lt h
  | cons item rest ih =>
    intro sel counts h
    simp only [diversifyGo]
    by_cases hsel : counts item.1 < 3 ∨ Rat.divInt 4 5 < item.2
    · rw [if_pos hsel]
      by_cases hbrk : topK ≤ (sel ++ [item]).length
      · rw [if_pos hbrk]
        simp only [List.length_append, List.length_singleton]
        omega
      · rw [if_neg hbrk]
        exact ih _ _ (by omega)
    · rw [if_neg hsel]
      exact ih _ _ h

/-- Helper: with every score at most `0.8`, the number of selected items
from any one page never exceeds `max 3` of its entry count. -/
theorem diversifyGo_perPage (topK : Nat) :
    ∀ (l sel : List (Nat × ℚ)) (counts : Nat → Nat),
      (∀ p, (sel.filter (fun c => decide (c.1 = p))).length = counts p) →
      (∀ c ∈ l, c.2 ≤ Rat.divInt 4 5) →
      ∀ p, ((diversifyGo topK l sel counts).filter
          (fun c => decide (c.1 = p))).length ≤ max 3 (counts p) := by
  intro l
  induction l with
  | nil =>
    intro sel counts hcons _ p
    simp only [diversifyGo]
    rw [hcons p]
    omega
  | cons item rest ih =>
    intro sel counts hcons hsc p
    simp only [diversifyGo]
    have hns : ¬ Rat.divInt 4 5 < item.2 :=
      not_lt.mpr (hsc item (List.mem_cons_self _ _))
    by_cases hcnt : counts item.1 < 3
    · rw [if_pos (Or.inl hcnt)]
      have hfl : ∀ q, ((sel ++ [item]).filter (fun c => decide (c.1 = q))).length =
          (if q = item.1 then counts q + 1 else counts q) := by
        intro q
        rw [List.filter_append, List.length_append, hcons q]
        by_cases hq : q = item.1
        · subst hq
          simp [List.filter]
        · rw [if_neg hq]
          have : item.1 ≠ q := fun h => hq h.symm
          simp [List.filter, this]
      by_cases hbrk : topK ≤ (sel ++ [item]).length
      · rw [if_pos hbrk, hfl p]
        by_cases hq : p = item.1
        · subst hq
          rw [if_pos rfl]
          omega
        · rw [if_neg hq]
          omega
      · rw [if_neg hbrk]
        have hres := ih (sel ++ [item])
          (fun q => if q = item.1 then counts q + 1 else counts q) hfl
          (fun c hc => hsc c (List.mem_cons_of_mem _ hc)) p
        by_cases hq : p = item.1
        · subst hq
          rw [if_pos rfl] at hres
          omega
        · rw [if_neg hq] at hres
          exact hres
    · rw [if_neg (by push_neg; exact ⟨by omega, not_lt.mp hns⟩)]
      exact ih sel counts hcons (fun c hc => hsc c (List.mem_cons_of_mem _ hc)) p

/-- Counterexample to claim C7 as stated: with `top_k = 0` and a single
low-score item the loop still selects the item before checking the stop
condition, so the output has 1 chunk although at most `top_k = 0` were
claimed (the input is trivially sorted descending with all scores
`≤ 0.8`). -/
theorem diversify_topk_zero_cex :
    List.Pairwise descScore [((0 : Nat), Rat.divInt 1 2)] ∧
      (∀ c ∈ [((0 : Nat), Rat.divInt 1 2)], c.2 ≤ Rat.divInt 4 5) ∧
      (diversify 0 [((0 : Nat), Rat.divInt 1 2)]).length = 1 := by
  refine ⟨by simp, ?_, by decide⟩
  intro c hc
  rcases List.mem_singleton.mp hc with rfl
  decide

/-- C7 (amended): for every descending-sorted scored chunk list in which
every score is at most `0.8` and every requested `top_k ≥ 1`, the
diversifier's output contains at most 3 chunks from any one source page
and at most `top_k` chunks in total, preserving the input's score order
(it is a sublist of the input); and a chunk whose score exceeds `0.8` is
selected whenever the loop examines it, even when its source already has
3 (or more) included chunks. -/
theorem diversify_spec (topK : Nat) (items : List (Nat × ℚ))
    (htop : 1 ≤ topK)
    (hsorted : List.Pairwise descScore items)
    (hsc : ∀ c ∈ items, c.2 ≤ Rat.divInt 4 5) :
    (diversify topK items).Sublist items ∧
      List.Pairwise descScore (diversify topK items) ∧
      (diversify topK items).length ≤ topK ∧
      (∀ p, ((diversify topK items).filter
        (fun c => decide (c.1 = p))).length ≤ 3) ∧
      (∀ (item : Nat × ℚ) rest sel counts, Rat.divInt 4 5 < item.2 →
        item ∈ diversifyGo topK (item :: rest) sel counts) := by
  have hsub : (diversify topK items).Sublist items := by
    obtain ⟨t, hsubt, heq⟩ := diversifyGo_extends topK items [] (fun _ => 0)
    unfold diversify
    rw [heq]
    simpa using hsubt
  refine ⟨hsub, List.Pairwise.sublist hsub hsorted, ?_, ?_, ?_⟩
  · exact diversifyGo_length topK items [] (fun _ => 0) (by simpa using htop)
  · intro p
    have h := diversifyGo_perPage topK items [] (fun _ => 0) (by simp) hsc p
    simpa using h
  · intro item rest sel counts hhi
    simp only [diversifyGo, if_pos (Or.inr hhi)]
    by_cases hbrk : topK ≤ (sel ++ [item]).length
    · rw [if_pos hbrk]
      simp
    · rw [if_neg hbrk]
      obtain ⟨t, _, heq⟩ := diversifyGo_extends topK rest (sel ++ [item])
        (fun p => if p = item.1 then counts p + 1 else counts p)
      rw [heq]
      simp

/-- Witness for `diversify_spec` on two sorted low-score items with
`top_k = 5`, plus a high-score item selected against a page count of 3. -/
theorem diversify_spec_witness :
    (diversify 5 [((0 : Nat), Rat.divInt 1 2), (1, Rat.divInt 1 3)]).Sublist
        [((0 : Nat), Rat.divInt 1 2), (1, Rat.divInt 1 3)] ∧
      (diversify 5 [((0 : Nat), Rat.divInt 1 2), (1, Rat.divInt 1 3)]).length ≤ 5 ∧
      ((diversify 5 [((0 : Nat), Rat.divInt 1 2), (1, Rat.divInt 1 3)]).filter
        (fun c => decide (c.1 = 0))).length ≤ 3 ∧
      ((0 : Nat), Rat.divInt 9 10) ∈
        diversifyGo 5 [((0 : Nat), Rat.divInt 9 10)] [] (fun _ => 3) := by
  have h := diversify_spec 5 [((0 : Nat), Rat.divInt 1 2), (1, Rat.divInt 1 3)]
    (by decide) (by decide)
    (by intro c hc
        rcases List.mem_cons.mp hc with rfl | hc'
        · decide
        · rcases List.mem_singleton.mp hc' with rfl
          decide)
  exact ⟨h.1, h.2.2.1, h.2.2.2.1 0, h.2.2.2.2 ((0 : Nat), Rat.divInt 9 10) [] []
    (fun _ => 3) (by decide)⟩

/-! ## Reranking (`app/services/retrieval.py::_rerank` and
`app/services/vector_retrieval.py::rerank_chunks`)

Chunks are `(payload, score)` pairs; the reranker's HTTP call is passed in
as `Option`: `none` for a non-200 response or an exception, `some` for a
successful response.  `_rerank` consumes `{index, score}` records and
writes `candidates[idx].score = score` for in-range indices;
`rerank_chunks` consumes the scores positionally
(`for i, score in enumerate(results): chunks[i].score = ...`). -/

/-- Apply `{index, score}` records by mutation:
`candidates[idx].score = score` for every record with `idx` in range. -/
def applyIndexScores {α : Type} (cands : List (α × ℚ)) (resp : List (Nat × ℚ)) :
    List (α × ℚ) :=
  resp.foldl (fun cs r =>
    if h : r.1 < cs.length then cs.set r.1 ((cs.get ⟨r.1, h⟩).1, r.2) else cs) cands

/-- `_rerank(query, candidates)`: empty candidates short-circuit; on
failure the candidates are returned unchanged; on success the scores are
replaced by index and the list re-sorted descending. -/
def rerankRetrieval {α : Type} (cands : List (α × ℚ))
    (resp : Option (List (Nat × ℚ))) : List (α × ℚ) :=
  if cands.isEmpty then []
  else
    match resp with
    | none => cands
    | some rs => List.insertionSort descScore (applyIndexScores cands rs)

/-- `rerank_chunks(query, chunks)`: on failure the chunks are returned
unchanged; on success the scores are replaced positionally and the list
re-sorted descending. -/
def rerankVector {α : Type} (chunks : List (α × ℚ))
    (resp : Option (List ℚ)) : List (α × ℚ) :=
  match resp with
  | none => chunks
  | some ss => List.insertionSort descScore (applyIndexScores chunks ss.enum)

/-- Helper: applying the enumerated scores `ss` starting at position `k`
replaces the scores of `cands.drop k` elementwise. -/
theorem applyIndexScores_enumFrom {α : Type} :
    ∀ (ss : List ℚ) (k : Nat) (cs : List (α × ℚ)), k + ss.length = cs.length →
      List.foldl (fun cs r =>
          if h : r.1 < cs.length then cs.set r.1 ((cs.get ⟨r.1, h⟩).1, r.2) else cs)
          cs (List.enumFrom k ss) =
        cs.take k ++ List.zipWith (fun c v => (c.1, v)) (cs.drop k) ss := by
  intro ss
  induction ss with
  | nil =>
    intro k cs hk
    simp only [List.length_nil] at hk
    simp only [List.enumFrom, List.foldl_nil, List.zipWith_nil_right, List.append_nil]
    exact (List.take_of_length_le (by omega)).symm
  | cons v ss ih =>
    intro k cs hk
    simp only [List.length_cons] at hk
    have hklt : k < cs.length := by omega
    simp only [List.enumFrom, List.foldl_cons, dif_pos hklt]
    have hset : cs.set k ((cs.get ⟨k, hklt⟩).1, v) =
        cs.take k ++ ((cs.get ⟨k, hklt⟩).1, v) :: cs.drop (k + 1) := by
      rw [List.set_eq_take_append_cons_drop]
      rw [if_pos hklt]
    rw [hset] at *
    have hlen' : (k + 1) + ss.length =
        (cs.take k ++ ((cs.get ⟨k, hklt⟩).1, v) :: cs.drop (k + 1)).length := by
      simp only [List.length_append, List.length_cons, List.length_take, List.length_drop]
      omega
    rw [ih (k + 1) _ hlen']
    have htk : (cs.take k ++ ((cs.get ⟨k, hklt⟩).1, v) :: cs.drop (k + 1)).take (k + 1) =
        cs.take k ++ [((cs.get ⟨k, hklt⟩).1, v)] := by
      rw [List.take_append_eq_append_take]
      have h1 : (cs.take k).length = k := List.length_take_of_le (by omega)
      rw [List.take_of_length_le (by omega), h1]
      have h2 : k + 1 - k = 1 := by omega
      rw [h2]
      rfl
    have hdr : (cs.take k ++ ((cs.get ⟨k, hklt⟩).1, v) :: cs.drop (k + 1)).drop (k + 1) =
        cs.drop (k + 1) := by
      rw [List.drop_append_eq_append_drop]
      have h1 : (cs.take k).length = k := List.length_take_of_le (by omega)
      rw [List.drop_of_length_le (by omega), h1]
      simp
    rw [htk, hdr]
    have hdk : cs.drop k = cs[k] :: cs.drop (k + 1) := List.drop_eq_getElem_cons hklt
    rw [hdk]
    simp only [List.zipWith_cons_cons]
    rw [List.append_assoc]
    rfl

/-- C8: reranking replaces each chunk's score with the relevance score
returned by the scoring service — by `{index, score}` record for
`_rerank`, positionally for `rerank_chunks`, with the service returning
one score per input in order — and re-sorts the chunks descending by the
new scores; if the service call fails (non-200 response or exception),
both functions return the input chunks in their original order with their
original scores unchanged. -/
theorem rerank_spec {α : Type} (cands : List (α × ℚ)) (ss : List ℚ)
    (hlen : ss.length = cands.length) :
    rerankRetrieval cands none = cands ∧
      rerankVector cands none = cands ∧
      (rerankRetrieval cands (some ss.enum)).Perm
        (List.zipWith (fun c v => (c.1, v)) cands ss) ∧
      List.Pairwise descScore (rerankRetrieval cands (some ss.enum)) ∧
      (rerankVector cands (some ss)).Perm
        (List.zipWith (fun c v => (c.1, v)) cands ss) ∧
      List.Pairwise descScore (rerankVector cands (some ss)) := by
  have happly : applyIndexScores cands ss.enum =
      List.zipWith (fun c v => (c.1, v)) cands ss := by
    have h := applyIndexScores_enumFrom (α := α) ss 0 cands (by omega)
    simpa [applyIndexScores, List.enum] using h
  refine ⟨?_, rfl, ?_, ?_, ?_, ?_⟩
  · unfold rerankRetrieval
    by_cases he : cands.isEmpty
    · rw [if_pos he]
      exact (List.isEmpty_iff.mp he).symm
    · rw [if_neg he]
  · unfold rerankRetrieval
    by_cases he : cands.isEmpty
    · obtain rfl := List.isEmpty_iff.mp he
      simp
    · rw [if_neg he]
      show (List.insertionSort descScore (applyIndexScores cands ss.enum)).Perm _
      rw [happly]
      exact List.perm_insertionSort _ _
  · unfold rerankRetrieval
    by_cases he : cands.isEmpty
    · obtain rfl := List.isEmpty_iff.mp he
      simp
    · rw [if_neg he]
      show List.Pairwise descScore
        (List.insertionSort descScore (applyIndexScores cands ss.enum))
      exact List.sorted_insertionSort _ _
  · show (List.insertionSort descScore (applyIndexScores cands ss.enum)).Perm _
    rw [happly]
    exact List.perm_insertionSort _ _
  · show List.Pairwise descScore (List.insertionSort descScore (applyIndexScores cands ss.enum))
    exact List.sorted_insertionSort _ _

/-- Witness for `rerank_spec`: two chunks with original scores `1, 2`
rescored to `5, 7` (and returned unchanged on failure). -/
theorem rerank_spec_witness :
    rerankRetrieval [((0 : Nat), (1 : ℚ)), (1, 2)] none =
        [((0 : Nat), (1 : ℚ)), (1, 2)] ∧
      rerankVector [((0 : Nat), (1 : ℚ)), (1, 2)] none =
        [((0 : Nat), (1 : ℚ)), (1, 2)] ∧
      (rerankRetrieval [((0 : Nat), (1 : ℚ)), (1, 2)] (some ([5, 7] : List ℚ).enum)).Perm
        (List.zipWith (fun c v => (c.1, v)) [((0 : Nat), (1 : ℚ)), (1, 2)] [5, 7]) ∧
      List.Pairwise descScore
        (rerankRetrieval [((0 : Nat), (1 : ℚ)), (1, 2)] (some ([5, 7] : List ℚ).enum)) ∧
      (rerankVector [((0 : Nat), (1 : ℚ)), (1, 2)] (some [5, 7])).Perm
        (List.zipWith (fun c v => (c.1, v)) [((0 : Nat), (1 : ℚ)), (1, 2)] [5, 7]) ∧
      List.Pairwise descScore
        (rerankVector [((0 : Nat), (1 : ℚ)), (1, 2)] (some [5, 7])) :=
  rerank_spec [((0 : Nat), (1 : ℚ)), (1, 2)] [5, 7] (by decide)

/-! ## Abstention (`app/routers/chat.py::chat_endpoint.generate_response`)

The SSE stream is modelled as a list of events computed from the inputs
the generator branches on: the reranked retrieved chunks, the citation
snippets found by expansion, and (for the generation branch) the tokens
the LLM would stream.  A `llmRequest` event marks the point where the
code calls `llm_service.generate_stream`; the abstention branch returns
before it.  `0.05` is `Rat.divInt 1 20`.  The generation branch's own
citation extraction is independent of the abstention decision and is not
modelled further. -/

structure RChunk where
  text : List Char
  url : String
  title : String
  score : ℚ
deriving DecidableEq, Repr

structure ChatCitation where
  text : List Char
  url : String
  title : String
  score : ℚ
deriving DecidableEq, Repr

inductive SseEvent
  | start
  | text (content : String)
  | citation (citations : List ChatCitation)
  | llmRequest
  | token (t : String)
  | done
deriving DecidableEq

/-- `Citation(text=chunk.text[:200] + "...", url=..., title=..., score=...)`. -/
def mkChatCitation (c : RChunk) : ChatCitation :=
  ⟨c.text.take 200 ++ "...".data, c.url, c.title, c.score⟩

/-- The fixed no-evidence message of the empty-retrieval branch. -/
def noEvidenceMsg : String :=
  "I couldn't find relevant information to answer your question. Please try rephrasing or asking about a different topic."

/-- The event stream produced by `generate_response`:  `start`; if nothing
was retrieved, the fixed no-evidence text and `done`; if the top score is
below `0.05` and no citation snippets were found, the abstention message,
the top-3 chunks as citations, and `done` — with no generation request;
otherwise a generation request streaming the LLM's tokens. -/
def generateResponse (abstainMsg : String) (retrieved : List RChunk)
    (snippets : List String) (llmTokens : List String) : List SseEvent :=
  SseEvent.start ::
    match retrieved with
    | [] => [SseEvent.text noEvidenceMsg, SseEvent.done]
    | c :: _ =>
      if c.score < Rat.divInt 1 20 ∧ snippets = [] then
        [SseEvent.text abstainMsg,
          SseEvent.citation ((retrieved.take 3).map mkChatCitation),
          SseEvent.done]
      else
        SseEvent.llmRequest :: (llmTokens.map SseEvent.token ++ [SseEvent.done])

/-- C3: when retrieval produced a non-empty ranked chunk list whose top
score is below `0.05` and no citation snippets were found, the chat path
emits the fixed abstention message and the top-3 retrieved chunks as
citation-only output and issues no generation request; when the top score
is at or above the threshold, or citation snippets were found, it issues
a generation request instead. -/
theorem abstention_spec (abstainMsg : String) (snippets : List String)
    (tokens : List String) (c : RChunk) (rest : List RChunk) :
    (c.score < Rat.divInt 1 20 → snippets = [] →
      generateResponse abstainMsg (c :: rest) snippets tokens =
        [SseEvent.start, SseEvent.text abstainMsg,
          SseEvent.citation (((c :: rest).take 3).map mkChatCitation),
          SseEvent.done] ∧
      SseEvent.llmRequest ∉ generateResponse abstainMsg (c :: rest) snippets tokens) ∧
    (Rat.divInt 1 20 ≤ c.score ∨ snippets ≠ [] →
      SseEvent.llmRequest ∈ generateResponse abstainMsg (c :: rest) snippets tokens) := by
  have hred : generateResponse abstainMsg (c :: rest) snippets tokens =
      SseEvent.start ::
        (if c.score < Rat.divInt 1 20 ∧ snippets = [] then
          [SseEvent.text abstainMsg,
            SseEvent.citation (((c :: rest).take 3).map mkChatCitation),
            SseEvent.done]
        else SseEvent.llmRequest :: (tokens.map SseEvent.token ++ [SseEvent.done])) := rfl
  constructor
  · intro hlow hsnip
    have hcond : c.score < Rat.divInt 1 20 ∧ snippets = [] := ⟨hlow, hsnip⟩
    rw [hred, if_pos hcond]
    exact ⟨rfl, by simp⟩
  · intro h
    have hcond : ¬ (c.score < Rat.divInt 1 20 ∧ snippets = []) := by
      rcases h with h | h
      · exact fun hc => absurd hc.1 (not_lt.mpr h)
      · exact fun hc => h hc.2
    rw [hred, if_neg hcond]
    simp

/-- Witness for `abstention_spec`: a single retrieved chunk with score
`0.02`, no snippets (abstention fires); and the same chunk with a snippet
found (generation fires). -/
theorem abstention_spec_witness :
    (generateResponse "abstain" [⟨"t".data, "u", "T", Rat.divInt 1 50⟩] [] ["tok"] =
        [SseEvent.start, SseEvent.text "abstain",
          SseEvent.citation ([⟨"t".data, "u", "T", Rat.divInt 1 50⟩].map mkChatCitation),
          SseEvent.done] ∧
      SseEvent.llmRequest ∉
        generateResponse "abstain" [⟨"t".data, "u", "T", Rat.divInt 1 50⟩] [] ["tok"]) ∧
    SseEvent.llmRequest ∈
      generateResponse "abstain" [⟨"t".data, "u", "T", Rat.divInt 1 50⟩] ["snip"] ["tok"] :=
  ⟨(abstention_spec "abstain" [] ["tok"] ⟨"t".data, "u", "T", Rat.divInt 1 50⟩ []).1
      (by decide) rfl,
    (abstention_spec "abstain" ["snip"] ["tok"] ⟨"t".data, "u", "T", Rat.divInt 1 50⟩ []).2
      (Or.inr (by decide))⟩

/-! ## Crawl depth bound (`worker/jobs.py::fetch_and_process_citation`)

Child jobs are enqueued only inside `if depth < 2`, for the first three
discovered links whose dedup marker is not live, always at `depth + 1`. -/

structure CrawlJob where
  url : String
  depth : Nat
deriving DecidableEq, Repr

/-- The child jobs a finished job enqueues: none unless `depth < 2`,
otherwise the first 3 links that pass the dedup-freshness check, each one
at `depth + 1`. -/
def childJobs (job : CrawlJob) (links : List String) (fresh : String → Bool) :
    List CrawlJob :=
  if job.depth < 2 then
    ((links.take 3).filter fresh).map (fun l => ⟨l, job.depth + 1⟩)
  else []

/-- Jobs reachable from a root job by recursive link-following, for any
link graph (`links`/`fresh` arbitrary at every step). -/
inductive ReachableJob (root : CrawlJob) : CrawlJob → Prop
  | refl : ReachableJob root root
  | child {j c : CrawlJob} (links : List String) (fresh : String → Bool) :
      ReachableJob root j → c ∈ childJobs j links fresh → ReachableJob root c

/-- C4: starting from a job at depth 0, children are enqueued only by jobs
of depth strictly below `MAX_DEPTH = 2` and always at `depth + 1`, so
every reachable job has depth `≤ 2` and no job is ever enqueued at
depth 3, regardless of the link graph. -/
theorem crawl_depth_bound (root : CrawlJob) (hroot : root.depth = 0) :
    (∀ j, ReachableJob root j → j.depth ≤ 2) ∧
      (∀ (j : CrawlJob) links fresh c, c ∈ childJobs j links fresh →
        j.depth < 2 ∧ c.depth = j.depth + 1) ∧
      (∀ (j : CrawlJob) links fresh c, c ∈ childJobs j links fresh →
        c.depth ≠ 3) := by
  have hchild : ∀ (j : CrawlJob) links fresh c, c ∈ childJobs j links fresh →
      j.depth < 2 ∧ c.depth = j.depth + 1 := by
    intro j links fresh c hc
    unfold childJobs at hc
    by_cases hd : j.depth < 2
    · rw [if_pos hd] at hc
      obtain ⟨l, _, rfl⟩ := List.mem_map.mp hc
      exact ⟨hd, rfl⟩
    · rw [if_neg hd] at hc
      cases hc
  refine ⟨?_, hchild, ?_⟩
  · intro j hj
    induction hj with
    | refl => omega
    | child links fresh _ hc ih =>
      obtain ⟨hlt, heq⟩ := hchild _ links fresh _ hc
      omega
  · intro j links fresh c hc
    obtain ⟨hlt, heq⟩ := hchild j links fresh c hc
    omega

/-- Witness for `crawl_depth_bound`: a depth-0 root whose child through a
one-link graph sits at depth 1 — in particular not at depth 3. -/
theorem crawl_depth_bound_witness :
    (⟨"child", 1⟩ : CrawlJob).depth ≤ 2 ∧
      (⟨"child", 1⟩ : CrawlJob).depth ≠ 3 :=
  ⟨(crawl_depth_bound ⟨"root", 0⟩ rfl).1 ⟨"child", 1⟩
      (ReachableJob.child ["child"] (fun _ => true) ReachableJob.refl (by decide)),
    (crawl_depth_bound ⟨"root", 0⟩ rfl).2.2 ⟨"root", 0⟩ ["child"] (fun _ => true)
      ⟨"child", 1⟩ (by decide)⟩

/-! ## Dedup keying (`worker/jobs.py::fetch_and_process_citation`)

The Redis key is `"citation_processed:" + sha256(url)` — the hash of the
*raw* job URL as passed in, not of its canonical form.  SHA-256 is
modelled as injective, so a key is identified with the raw URL itself
(as a `ParsedUrl`).  The job checks `redis.exists(cache_key)` before any
work and `setex`es the marker with TTL only after successful processing;
the store below is the set of currently live keys. -/

/-- The dedup key of a job URL: the hash of the raw URL string, modelled
as the raw URL itself. -/
def dedupKey (url : ParsedUrl) : ParsedUrl := url

inductive JobStatus
  | cached
  | success
deriving DecidableEq, Repr

/-- One run of `fetch_and_process_citation` on the dedup state: return
`cached` untouched if the marker is live, otherwise process and set the
marker. -/
def runCitationJob (store : List ParsedUrl) (url : ParsedUrl) :
    JobStatus × List ParsedUrl :=
  if dedupKey url ∈ store then (JobStatus.cached, store)
  else (JobStatus.success, store ++ [dedupKey url])

/-- Counterexample to claim C5 as stated: two URLs identical except for
their fragment share a canonical form but have different raw-URL dedup
keys, so processing the first leaves the second's key free and both are
processed within the TTL. -/
theorem dedup_canonical_cex :
    canonicalize_url ⟨"https", "x.com", "/a", "", "s1"⟩ =
        canonicalize_url ⟨"https", "x.com", "/a", "", "s2"⟩ ∧
      (⟨"https", "x.com", "/a", "", "s1"⟩ : ParsedUrl) ≠ ⟨"https", "x.com", "/a", "", "s2"⟩ ∧
      (runCitationJob [] ⟨"https", "x.com", "/a", "", "s1"⟩).1 = JobStatus.success ∧
      (runCitationJob (runCitationJob [] ⟨"https", "x.com", "/a", "", "s1"⟩).2
        ⟨"https", "x.com", "/a", "", "s2"⟩).1 = JobStatus.success := by
  refine ⟨by decide, by decide, rfl, by decide⟩

/-- C5 (amended): dedup entries are keyed by the hash of the *raw* URL
string, checked before processing and set with TTL after successful
processing; while a marker is live no job for the *same raw URL* is
processed again, but keys coincide exactly for equal raw URLs, so two
URLs differing only in fragment (equal canonical forms) can both be
processed within the TTL. -/
theorem dedup_raw_key_spec (store : List ParsedUrl) (u : ParsedUrl) :
    ((runCitationJob store u).1 = JobStatus.cached ↔ dedupKey u ∈ store) ∧
      (runCitationJob (runCitationJob store u).2 u).1 = JobStatus.cached ∧
      (∀ v, dedupKey u = dedupKey v ↔ u = v) := by
  refine ⟨?_, ?_, fun v => Iff.rfl⟩
  · unfold runCitationJob
    by_cases h : dedupKey u ∈ store
    · rw [if_pos h]
      exact ⟨fun _ => h, fun _ => rfl⟩
    · rw [if_neg h]
      exact ⟨fun hc => (by simp at hc), fun hm => absurd hm h⟩
  · unfold runCitationJob
    by_cases h : dedupKey u ∈ store
    · rw [if_pos h, if_pos h]
    · rw [if_neg h]
      have hmem : dedupKey u ∈ store ++ [dedupKey u] := by simp
      rw [if_pos hmem]

/-! ## Fetching (`worker/jobs.py::fetch_url` with
`libs/links.py::is_url_allowed`)

The allowlist decision is the abstract predicate `allowed` (the compiled
regex list of `is_url_allowed`); the HTTP exchange is the explicit value
`resp` (`none` for a transport/HTTP-status failure after retries), with
the `Content-Length` header and the streamed byte chunks (bytes as `ℕ`).
The `Bool` component records whether a network request was made: the
policy branch raises before `session.get`. -/

def MAX_CONTENT_SIZE : Nat := 512 * 1024

structure HttpResp where
  finalUrl : ParsedUrl
  contentLength : Option Nat
  chunks : List (List Nat)
deriving DecidableEq, Repr

inductive FetchErr
  | policy
  | tooLargeHeader
  | tooLargeStream
  | http
deriving DecidableEq, Repr

structure FetchResult where
  finalUrl : ParsedUrl
  canonicalUrl : ParsedUrl
  content : List Nat
  size : Nat
deriving DecidableEq, Repr

/-- The `iter_content` loop: skip falsy (empty) chunks, append and count
the rest, failing as soon as the running total exceeds the cap. -/
def readStream : List (List Nat) → Nat → List Nat →
    Except FetchErr (List Nat × Nat)
  | [], total, acc => Except.ok (acc, total)
  | c :: rest, total, acc =>
    if c.isEmpty then readStream rest total acc
    else if MAX_CONTENT_SIZE < total + c.length then Except.error FetchErr.tooLargeStream
    else readStream rest (total + c.length) (acc ++ c)

/-- The `Content-Length` header check
(`if content_length and int(content_length) > MAX_CONTENT_SIZE`). -/
def headerTooLarge (cl : Option Nat) : Bool :=
  match cl with
  | some n => decide (MAX_CONTENT_SIZE < n)
  | none => false

/-- `fetch_url`: canonicalize, reject by policy before any network call,
fail on an oversize `Content-Length` header, then stream with the size
cap.  The second component records whether the network was touched. -/
def fetch_url (allowed : ParsedUrl → Bool) (url : ParsedUrl)
    (resp : Option HttpResp) : Except FetchErr FetchResult × Bool :=
  if allowed (canonicalize_url url) = false then
    (Except.error FetchErr.policy, false)
  else
    match resp with
    | none => (Except.error FetchErr.http, true)
    | some r =>
      if headerTooLarge r.contentLength then
        (Except.error FetchErr.tooLargeHeader, true)
      else
        match readStream r.chunks 0 [] with
        | Except.error e => (Except.error e, true)
        | Except.ok p => (Except.ok ⟨r.finalUrl, canonicalize_url url, p.1, p.2⟩, true)

/-- Helper: a successful stream read returns the concatenated body, whose
size never exceeds the cap (given the running total starts within it). -/
theorem readStream_ok : ∀ (chunks : List (List Nat)) (total : Nat) (acc : List Nat) p,
    total ≤ MAX_CONTENT_SIZE → readStream chunks total acc = Except.ok p →
      p.1 = acc ++ chunks.flatten ∧ p.2 = total + (chunks.map List.length).sum ∧
        p.2 ≤ MAX_CONTENT_SIZE := by
  intro chunks
  induction chunks with
  | nil =>
    intro total acc p hle h
    cases h
    refine ⟨by simp, by simp, ?_⟩
    simpa using hle
  | cons c rest ih =>
    intro total acc p hle h
    simp only [readStream] at h
    by_cases hc : c.isEmpty
    · rw [if_pos hc] at h
      obtain rfl : c = [] := List.isEmpty_iff.mp hc
      have := ih total acc p hle h
      simpa using this
    · rw [if_neg hc] at h
      by_cases hsz : MAX_CONTENT_SIZE < total + c.length
      · rw [if_pos hsz] at h
        cases h
      · rw [if_neg hsz] at h
        obtain ⟨h1, h2, h3⟩ := ih (total + c.length) (acc ++ c) p (by omega) h
        refine ⟨by rw [h1]; simp, by rw [h2]; simp; omega, h3⟩

/-- Helper: when the total body size exceeds the cap, the stream read
fails with the size error. -/
theorem readStream_overflow : ∀ (chunks : List (List Nat)) (total : Nat) (acc : List Nat),
    total ≤ MAX_CONTENT_SIZE →
    MAX_CONTENT_SIZE < total + (chunks.map List.length).sum →
      readStream chunks total acc = Except.error FetchErr.tooLargeStream := by
  intro chunks
  induction chunks with
  | nil =>
    intro total acc hle h
    simp at h
    omega
  | cons c rest ih =>
    intro total acc hle h
    simp only [List.map_cons, List.sum_cons] at h
    simp only [readStream]
    by_cases hc : c.isEmpty
    · rw [if_pos hc]
      obtain rfl : c = [] := List.isEmpty_iff.mp hc
      exact ih total acc hle (by simpa using h)
    · rw [if_neg hc]
      by_cases hsz : MAX_CONTENT_SIZE < total + c.length
      · rw [if_pos hsz]
      · rw [if_neg hsz]
        exact ih (total + c.length) (acc ++ c) (by omega) (by omega)

/-- C6: `fetch_url` fails with the policy error and makes no network
request when the canonicalized URL fails the allowlist; with the network
reached, it fails with a size error when the `Content-Length` header
exceeds 512 KiB, and when the cumulative streamed byte count exceeds
512 KiB; and a successful fetch always returns a body of at most 512 KiB
from an allowlisted (canonicalized) URL. -/
theorem fetch_url_spec (allowed : ParsedUrl → Bool) (url : ParsedUrl)
    (resp : Option HttpResp) :
    (allowed (canonicalize_url url) = false →
      fetch_url allowed url resp = (Except.error FetchErr.policy, false)) ∧
      (∀ r n, resp = some r → allowed (canonicalize_url url) = true →
        r.contentLength = some n → MAX_CONTENT_SIZE < n →
        fetch_url allowed url resp = (Except.error FetchErr.tooLargeHeader, true)) ∧
      (∀ r, resp = some r → allowed (canonicalize_url url) = true →
        (∀ n, r.contentLength = some n → n ≤ MAX_CONTENT_SIZE) →
        MAX_CONTENT_SIZE < (r.chunks.map List.length).sum →
        fetch_url allowed url resp = (Except.error FetchErr.tooLargeStream, true)) ∧
      (∀ res b, fetch_url allowed url resp = (Except.ok res, b) →
        res.content.length ≤ MAX_CONTENT_SIZE ∧
        allowed (canonicalize_url url) = true ∧
        res.canonicalUrl = canonicalize_url url) := by
  refine ⟨?_, ?_, ?_, ?_⟩
  · intro hpol
    unfold fetch_url
    rw [if_pos hpol]
  · rintro r n rfl hall hcl hgt
    unfold fetch_url
    rw [if_neg (by rw [hall]; simp)]
    dsimp only
    have hhdr : headerTooLarge r.contentLength = true := by
      unfold headerTooLarge
      rw [hcl]
      simpa using hgt
    rw [if_pos hhdr]
  · rintro r rfl hall hcl hov
    unfold fetch_url
    rw [if_neg (by rw [hall]; simp)]
    dsimp only
    have hhdr : ¬ headerTooLarge r.contentLength = true := by
      unfold headerTooLarge
      cases hcn : r.contentLength with
      | none => simp
      | some n => simpa using Nat.not_lt.mpr (hcl n hcn)
    rw [if_neg hhdr]
    rw [readStream_overflow r.chunks 0 [] (by omega) (by omega)]
  · intro res b h
    unfold fetch_url at h
    by_cases hpol : allowed (canonicalize_url url) = false
    · rw [if_pos hpol] at h
      cases h
    · rw [if_neg hpol] at h
      cases resp with
      | none => cases h
      | some r =>
        dsimp only at h
        by_cases hhdr : headerTooLarge r.contentLength = true
        · rw [if_pos hhdr] at h
          cases h
        · rw [if_neg hhdr] at h
          cases hrs : readStream r.chunks 0 [] with
          | error e =>
            rw [hrs] at h
            cases h
          | ok p =>
            rw [hrs] at h
            obtain ⟨h1, h2, h3⟩ := readStream_ok r.chunks 0 [] p (by omega) hrs
            cases h
            have hallt : allowed (canonicalize_url url) = true := by
              cases hb : allowed (canonicalize_url url) with
              | false => exact absurd hb hpol
              | true => rfl
            refine ⟨?_, hallt, rfl⟩
            have hlen : p.1.length = (r.chunks.map List.length).sum := by
              rw [h1]
              simp [List.length_flatten]
            simp only [hlen]
            omega

/-- Witness for `fetch_url_spec`: a URL failing the (empty-match)
allowlist is rejected with no network call. -/
theorem fetch_url_spec_witness :
    fetch_url (fun _ => false) ⟨"https", "blocked.com", "/p", "", ""⟩ none =
      (Except.error FetchErr.policy, false) :=
  (fetch_url_spec (fun _ => false) ⟨"https", "blocked.com", "/p", "", ""⟩ none).1 rfl
